import Mathlib

/-!
Verification of the boundary contract declared in
`mobile/library/common/types/c_types.h`: the value types (`envoy_data`,
`envoy_header`, `envoy_headers`), the allocation and copy utilities
(`safe_malloc`, `safe_calloc`, `copy_envoy_data`, `copy_envoy_headers`,
`release_envoy_headers`), and the stream callback protocol
(`envoy_http_callbacks`).

The header only declares the utility functions; their bodies live outside
the translated sources, so each one is modelled from the specification text
(marked `Modelled from the spec:` in its doc comment).  Heap storage is made
explicit: a heap maps addresses to blocks (byte arrays or header arrays),
address `0` plays the role of the C null pointer, and allocation hands out
strictly increasing fresh addresses.
-/

namespace EnvoyC

/-- The release callback attached to an `envoy_data` buffer
(`envoy_release_f` in the header).  `null` is a null function pointer and
marks a borrowed buffer; `noop` is `envoy_noop_release`; `free` is the C
`free` used by `copy_envoy_data` for owned storage. -/
inductive ReleaseFn where
  | null
  | noop
  | free
  deriving DecidableEq

/-- `envoy_data` from the header: a length (C `size_t`, embedded as `Nat`),
the address of the byte storage, a release function and its context. -/
structure envoy_data where
  length : Nat
  bytes : Nat
  release : ReleaseFn
  context : Nat
  deriving DecidableEq

/-- `envoy_header` from the header file: one key/value pair of buffers. -/
structure envoy_header where
  key : envoy_data
  value : envoy_data
  deriving DecidableEq

/-- `envoy_header_size_t` is declared as C `int`: a signed type, embedded
as `Int` with representability bounded by `int_max` where a collection is
well-formed. -/
abbrev envoy_header_size_t := Int

/-- Largest value of the 32-bit C `int` behind `envoy_header_size_t`. -/
def int_max : Int := 2 ^ 31 - 1

/-- `envoy_headers` from the header file: an entry count of the signed type
`envoy_header_size_t` and the address of the entry array. -/
structure envoy_headers where
  length : envoy_header_size_t
  headers : Nat
  deriving DecidableEq

/-- A heap block: either raw bytes (backing an `envoy_data`) or an array of
header entries (backing an `envoy_headers`). -/
inductive Block where
  | bytes (bs : List Nat)
  | harray (entries : List envoy_header)
  deriving DecidableEq

/-- Association list lookup of a block by address (first match wins). -/
def blocksLookup : List (Nat × Block) → Nat → Option Block
  | [], _ => none
  | p :: rest, a => if p.1 = a then some p.2 else blocksLookup rest a

/-- Remove every block at the given address. -/
def blocksRemove : List (Nat × Block) → Nat → List (Nat × Block)
  | [], _ => []
  | p :: rest, a => if p.1 = a then blocksRemove rest a else p :: blocksRemove rest a

/-- Overwrite the content of every block at the given address. -/
def blocksStore : List (Nat × Block) → Nat → Block → List (Nat × Block)
  | [], _, _ => []
  | p :: rest, a, b =>
    if p.1 = a then (a, b) :: blocksStore rest a b else p :: blocksStore rest a b

/-- Explicit heap: the next fresh address and the allocated blocks. -/
structure Heap where
  next : Nat
  blocks : List (Nat × Block)
  deriving DecidableEq

/-- Read the block allocated at an address, if any. -/
def Heap.lookup (h : Heap) (a : Nat) : Option Block :=
  blocksLookup h.blocks a

/-- C `free`: deallocate the block at an address (a no-op when nothing is
allocated there, as for `free(NULL)`). -/
def Heap.free (h : Heap) (a : Nat) : Heap :=
  ⟨h.next, blocksRemove h.blocks a⟩

/-- Overwrite the block at an allocated address. -/
def Heap.store (h : Heap) (a : Nat) (b : Block) : Heap :=
  ⟨h.next, blocksStore h.blocks a b⟩

/-- Allocate a fresh non-null address holding the given block. -/
def Heap.alloc (h : Heap) (b : Block) : Nat × Heap :=
  (h.next, ⟨h.next + 1, (h.next, b) :: h.blocks⟩)

/-- Heap well-formedness: the null address `0` is never allocated and every
allocated address is below the allocation bound. -/
def Heap.WF (h : Heap) : Prop :=
  0 < h.next ∧ ∀ p ∈ h.blocks, 0 < p.1 ∧ p.1 < h.next

/-- Read `n` bytes starting at an address; reading zero bytes, or reading
through a pointer that backs no byte block, yields no bytes. -/
def Heap.readBytes (h : Heap) (a : Nat) (n : Nat) : List Nat :=
  match h.lookup a with
  | some (.bytes bs) => bs.take n
  | _ => []

/-- Read the header-entry array at an address (empty when none is there). -/
def Heap.readHArray (h : Heap) (a : Nat) : List envoy_header :=
  match h.lookup a with
  | some (.harray es) => es
  | _ => []

/-- Modelled from the spec: `safe_malloc` is a malloc wrapper with a
fail-fast non-null-or-abort policy, so the executions it returns from always
produce a fresh valid allocation of `size` bytes (contents indeterminate in
C, fixed to zeros here); the abort path never returns and is therefore not
represented. -/
def safe_malloc (h : Heap) (size : Nat) : Nat × Heap :=
  h.alloc (.bytes (List.replicate size 0))

/-- Modelled from the spec: `safe_calloc` is the calloc wrapper under the
same fail-fast policy, allocating `count * size` zeroed bytes. -/
def safe_calloc (h : Heap) (count size : Nat) : Nat × Heap :=
  h.alloc (.bytes (List.replicate (count * size) 0))

/-- Modelled from the spec: `copy_envoy_data(length, src_bytes)` allocates
owned storage via `safe_malloc`, copies `length` bytes from the source, and
returns a buffer whose release function is `free` of that allocation (the
allocation itself is the release context). -/
def copy_envoy_data (h : Heap) (length : Nat) (src_bytes : Nat) : envoy_data × Heap :=
  let dst := safe_malloc h length
  let h2 := dst.2.store dst.1 (.bytes (h.readBytes src_bytes length))
  (⟨length, dst.1, .free, dst.1⟩, h2)

/-- One observable invocation of a release callback: which function ran and
with which context. -/
structure ReleaseEvent where
  fn : ReleaseFn
  context : Nat
  deriving DecidableEq

/-- Modelled from the spec: invoking a buffer's release callback.  A null
function pointer is skipped (no invocation), `envoy_noop_release` does
nothing to the heap, and `free` deallocates the context address.  The
returned list records the invocations actually made. -/
def releaseData (h : Heap) (d : envoy_data) : Heap × List ReleaseEvent :=
  match d.release with
  | .null => (h, [])
  | .noop => (h, [⟨.noop, d.context⟩])
  | .free => (h.free d.context, [⟨.free, d.context⟩])

/-- The release invocations one buffer contributes: none when its release
function is null, exactly one otherwise. -/
def relOnce (d : envoy_data) : List ReleaseEvent :=
  match d.release with
  | .null => []
  | r => [⟨r, d.context⟩]

/-- The release invocations a list of entries contributes, key before value,
in entry order. -/
def entriesEvents : List envoy_header → List ReleaseEvent
  | [] => []
  | e :: rest => relOnce e.key ++ relOnce e.value ++ entriesEvents rest

/-- Deep-copy a list of header entries, key and value each through
`copy_envoy_data`, threading the heap. -/
def copyEntries : Heap → List envoy_header → List envoy_header × Heap
  | h, [] => ([], h)
  | h, e :: rest =>
    let k := copy_envoy_data h e.key.length e.key.bytes
    let v := copy_envoy_data k.2 e.value.length e.value.bytes
    let tail := copyEntries v.2 rest
    (⟨k.1, v.1⟩ :: tail.1, tail.2)

/-- Modelled from the spec: `copy_envoy_headers(src)` deep-copies — it
reads the `src.length` entries of the source array, copies every entry's key
and value buffers via `copy_envoy_data`, allocates a new entry array of the
same length for the copies, and returns a collection of the same count over
that new array. -/
def copy_envoy_headers (h : Heap) (src : envoy_headers) : envoy_headers × Heap :=
  let entries := (h.readHArray src.headers).take src.length.toNat
  let copied := copyEntries h entries
  let dst := copied.2.alloc (.harray copied.1)
  (⟨src.length, dst.1⟩, dst.2)

/-- Release every entry's key buffer then value buffer, in entry order,
threading the heap and collecting the release invocations. -/
def releaseEntries : Heap → List envoy_header → Heap × List ReleaseEvent
  | h, [] => (h, [])
  | h, e :: rest =>
    let k := releaseData h e.key
    let v := releaseData k.1 e.value
    let tail := releaseEntries v.1 rest
    (tail.1, k.2 ++ v.2 ++ tail.2)

/-- Modelled from the spec: `release_envoy_headers(headers)` releases every
entry's key and value buffers (invoking each one's release function,
skipping null ones) and then frees the entry array. -/
def release_envoy_headers (h : Heap) (hs : envoy_headers) : Heap × List ReleaseEvent :=
  let entries := (h.readHArray hs.headers).take hs.length.toNat
  let rel := releaseEntries h entries
  (rel.1.free hs.headers, rel.2)

/-- A buffer is backed by the heap: its bytes address holds a byte block at
least `length` bytes long. -/
def dataWF (h : Heap) (d : envoy_data) : Prop :=
  ∃ bs, h.lookup d.bytes = some (.bytes bs) ∧ d.length ≤ bs.length

/-- A header collection is backed by the heap: its array address holds an
entry array whose length is exactly the declared count (hence the count is
representable in the signed `envoy_header_size_t`), and every entry's key
and value buffers are backed by the heap. -/
def headersWF (h : Heap) (hs : envoy_headers) : Prop :=
  ∃ entries, h.lookup hs.headers = some (.harray entries) ∧
    hs.length = (entries.length : Int) ∧ (entries.length : Int) ≤ int_max ∧
    ∀ e ∈ entries, dataWF h e.key ∧ dataWF h e.value

/-- The copy relation `copy_envoy_data` establishes between a source buffer
in heap `h` and its copy in the later heap `h2`: same length, owned via
`free` with the fresh storage itself as context, fresh (allocated at or
above `h.next`) and holding exactly the source's bytes. -/
def CopiedData (h h2 : Heap) (d d2 : envoy_data) : Prop :=
  d2.length = d.length ∧ d2.release = .free ∧ d2.context = d2.bytes ∧
  h.next ≤ d2.bytes ∧ d2.bytes < h2.next ∧
  h2.lookup d2.bytes = some (.bytes (h.readBytes d.bytes d.length))

/-- Entry-wise deep-copy relation: key and value both copied. -/
def CopiedEntry (h h2 : Heap) (e e2 : envoy_header) : Prop :=
  CopiedData h h2 e.key e2.key ∧ CopiedData h h2 e.value e2.value

/-- The heap after copying a collection and then releasing the copy. -/
def roundTrip (h : Heap) (hs : envoy_headers) : Heap :=
  (release_envoy_headers (copy_envoy_headers h hs).2 (copy_envoy_headers h hs).1).1

/-- One invocation of an `envoy_http_callbacks` member as observed by the
platform, with the `end_stream` flag where the signature carries one. -/
inductive CallbackEvent where
  | on_headers (end_stream : Bool)
  | on_data (end_stream : Bool)
  | on_metadata
  | on_trailers
  | on_error
  | on_complete
  | on_cancel
  deriving DecidableEq, Fintype

/-- The three protocol states of one stream as observed by the platform:
no callback yet (`idle`), headers delivered without the end flag
(`active`), and ended (`closed`). -/
inductive StreamState where
  | idle
  | active
  | closed
  deriving DecidableEq, Fintype

/-- Modelled from the spec: the transition rules of the stream callback
protocol.  Headers fire at most once, before any data or metadata; data and
metadata follow headers, metadata never ends the stream; `end_stream=true`
on headers or data ends the stream immediately with no terminal callback to
follow; trailers require headers delivered without the end flag; trailers,
complete, error and cancel each end the stream; error and cancel may also
end a stream before headers arrive; nothing follows once the stream has
ended. -/
def stepFn : StreamState → CallbackEvent → Option StreamState
  | .idle, .on_headers false => some .active
  | .idle, .on_headers true => some .closed
  | .idle, .on_error => some .closed
  | .idle, .on_cancel => some .closed
  | .active, .on_data false => some .active
  | .active, .on_data true => some .closed
  | .active, .on_metadata => some .active
  | .active, .on_trailers => some .closed
  | .active, .on_complete => some .closed
  | .active, .on_error => some .closed
  | .active, .on_cancel => some .closed
  | _, _ => none

/-- Run a callback sequence from a state; `none` when it violates the
protocol. -/
def run : StreamState → List CallbackEvent → Option StreamState
  | s, [] => some s
  | s, e :: rest =>
    match stepFn s e with
    | some s2 => run s2 rest
    | none => none

/-- The four terminal callbacks of the protocol. -/
def isTerminal : CallbackEvent → Bool
  | .on_trailers => true
  | .on_error => true
  | .on_complete => true
  | .on_cancel => true
  | _ => false

/-- Number of terminal callbacks in a sequence. -/
def terminalCount (tr : List CallbackEvent) : Nat :=
  (tr.filter isTerminal).length

/-- Frames carrying the explicit end-of-stream marker. -/
def isEndMarker : CallbackEvent → Bool
  | .on_headers true => true
  | .on_data true => true
  | _ => false

theorem blocksLookup_mem {l : List (Nat × Block)} {a : Nat} {b : Block}
    (h : blocksLookup l a = some b) : (a, b) ∈ l := by
  induction l with
  | nil => simp [blocksLookup] at h
  | cons p rest ih =>
    by_cases hp : p.1 = a
    · simp only [blocksLookup, if_pos hp, Option.some.injEq] at h
      have hpab : p = (a, b) := by
        cases p
        simp_all
      rw [← hpab]
      exact List.mem_cons_self _ _
    · simp only [blocksLookup, if_neg hp] at h
      exact List.mem_cons_of_mem _ (ih h)

theorem Heap.lookup_bounds {h : Heap} {a : Nat} {b : Block} (hwf : h.WF)
    (hl : h.lookup a = some b) : 0 < a ∧ a < h.next :=
  hwf.2 _ (blocksLookup_mem hl)

theorem blocksStore_of_ne {l : List (Nat × Block)} {a : Nat} (b : Block)
    (hne : ∀ p ∈ l, p.1 ≠ a) : blocksStore l a b = l := by
  induction l with
  | nil => rfl
  | cons p rest ih =>
    have hp : p.1 ≠ a := hne p (List.mem_cons_self _ _)
    simp only [blocksStore, if_neg hp]
    rw [ih fun q hq => hne q (List.mem_cons_of_mem _ hq)]

theorem blocksRemove_of_ne {l : List (Nat × Block)} {a : Nat}
    (hne : ∀ p ∈ l, p.1 ≠ a) : blocksRemove l a = l := by
  induction l with
  | nil => rfl
  | cons p rest ih =>
    have hp : p.1 ≠ a := hne p (List.mem_cons_self _ _)
    simp only [blocksRemove, if_neg hp]
    rw [ih fun q hq => hne q (List.mem_cons_of_mem _ hq)]

theorem blocksLookup_remove_self (l : List (Nat × Block)) (a : Nat) :
    blocksLookup (blocksRemove l a) a = none := by
  induction l with
  | nil => rfl
  | cons p rest ih =>
    by_cases hp : p.1 = a
    · simp only [blocksRemove, if_pos hp]
      exact ih
    · simp only [blocksRemove, if_neg hp, blocksLookup, if_neg hp]
      exact ih

theorem blocksLookup_remove_ne (l : List (Nat × Block)) {a a2 : Nat}
    (hne : a2 ≠ a) : blocksLookup (blocksRemove l a) a2 = blocksLookup l a2 := by
  induction l with
  | nil => rfl
  | cons p rest ih =>
    by_cases hp : p.1 = a
    · have hp2 : p.1 ≠ a2 := by rw [hp]; exact fun hc => hne hc.symm
      simp only [blocksRemove, if_pos hp, blocksLookup, if_neg hp2]
      exact ih
    · simp only [blocksRemove, if_neg hp, blocksLookup]
      by_cases hq : p.1 = a2
      · simp [hq]
      · simp only [if_neg hq]
        exact ih

theorem Heap.free_lookup_self (h : Heap) (a : Nat) : (h.free a).lookup a = none :=
  blocksLookup_remove_self h.blocks a

theorem Heap.free_lookup_ne (h : Heap) {a a2 : Nat} (hne : a2 ≠ a) :
    (h.free a).lookup a2 = h.lookup a2 :=
  blocksLookup_remove_ne h.blocks hne

theorem Heap.free_next (h : Heap) (a : Nat) : (h.free a).next = h.next := rfl

theorem Heap.WF.ne_next {h : Heap} (hwf : h.WF) : ∀ p ∈ h.blocks, p.1 ≠ h.next :=
  fun p hp => Nat.ne_of_lt (hwf.2 p hp).2

theorem copy_envoy_data_eq (h : Heap) (n : Nat) (src : Nat) (hwf : h.WF) :
    copy_envoy_data h n src =
      (⟨n, h.next, .free, h.next⟩,
       ⟨h.next + 1, (h.next, .bytes (h.readBytes src n)) :: h.blocks⟩) := by
  unfold copy_envoy_data safe_malloc Heap.alloc Heap.store
  simp only [blocksStore, if_pos rfl, eq_self_iff_true, if_true]
  rw [blocksStore_of_ne _ hwf.ne_next]

theorem Heap.wf_cons_fresh {h : Heap} (hwf : h.WF) (b : Block) :
    Heap.WF ⟨h.next + 1, (h.next, b) :: h.blocks⟩ := by
  refine ⟨Nat.lt_succ_of_lt hwf.1, ?_⟩
  intro p hp
  rcases List.mem_cons.mp hp with hp | hp
  · rw [hp]
    exact ⟨hwf.1, Nat.lt_succ_self _⟩
  · exact ⟨(hwf.2 p hp).1, Nat.lt_succ_of_lt (hwf.2 p hp).2⟩

theorem lookup_cons_ne {h : Heap} {a a2 : Nat} (b : Block) (hne : a2 ≠ a) :
    Heap.lookup ⟨h.next + 1, (a, b) :: h.blocks⟩ a2 = h.lookup a2 := by
  simp only [Heap.lookup, blocksLookup, if_neg (fun hc : a = a2 => hne hc.symm)]

theorem readBytes_congr {h h2 : Heap} {a : Nat} (n : Nat)
    (heq : h2.lookup a = h.lookup a) : h2.readBytes a n = h.readBytes a n := by
  unfold Heap.readBytes
  rw [heq]

theorem CopiedData.mono_left {h h' h2 : Heap} {d d2 : envoy_data}
    (hc : CopiedData h' h2 d d2) (hle : h.next ≤ h'.next)
    (hlook : h'.lookup d.bytes = h.lookup d.bytes) : CopiedData h h2 d d2 := by
  obtain ⟨hlen, hrel, hctx, hlo, hhi, hcontent⟩ := hc
  exact ⟨hlen, hrel, hctx, le_trans hle hlo, hhi,
    by rw [hcontent, readBytes_congr _ hlook]⟩

theorem CopiedData.mono_right {h h2 h3 : Heap} {d d2 : envoy_data}
    (hc : CopiedData h h2 d d2) (hle : h2.next ≤ h3.next)
    (hlook : h3.lookup d2.bytes = h2.lookup d2.bytes) : CopiedData h h3 d d2 := by
  obtain ⟨hlen, hrel, hctx, hlo, hhi, hcontent⟩ := hc
  exact ⟨hlen, hrel, hctx, hlo, lt_of_lt_of_le hhi hle, by rw [hlook, hcontent]⟩

theorem forall₂_imp_mem {α β : Type} {R S : α → β → Prop} :
    ∀ {l1 : List α} {l2 : List β}, List.Forall₂ R l1 l2 →
      (∀ a b, a ∈ l1 → R a b → S a b) → List.Forall₂ S l1 l2 := by
  intro l1 l2 hf
  induction hf with
  | nil => exact fun _ => List.Forall₂.nil
  | cons hab _ ih =>
    intro himp
    exact List.Forall₂.cons (himp _ _ (List.mem_cons_self _ _) hab)
      (ih fun a b ha hr => himp a b (List.mem_cons_of_mem _ ha) hr)

theorem forall₂_mem_right {α β : Type} {R : α → β → Prop} :
    ∀ {l1 : List α} {l2 : List β}, List.Forall₂ R l1 l2 →
      ∀ b ∈ l2, ∃ a ∈ l1, R a b := by
  intro l1 l2 hf
  induction hf with
  | nil => intro b hb; exact absurd hb (List.not_mem_nil b)
  | cons hab _ ih =>
    intro b hb
    rcases List.mem_cons.mp hb with hb | hb
    · exact ⟨_, List.mem_cons_self _ _, hb ▸ hab⟩
    · obtain ⟨a, ha, hr⟩ := ih b hb
      exact ⟨a, List.mem_cons_of_mem _ ha, hr⟩

/-- The two fresh byte blocks one entry's copy pushes onto the heap. -/
def stepHeap (h : Heap) (e : envoy_header) : Heap :=
  ⟨h.next + 1 + 1,
   (h.next + 1, Block.bytes (h.readBytes e.value.bytes e.value.length)) ::
   (h.next, Block.bytes (h.readBytes e.key.bytes e.key.length)) :: h.blocks⟩

theorem copyEntries_cons_eq (h : Heap) (e : envoy_header) (rest : List envoy_header)
    (hwf : h.WF) (hvb : e.value.bytes ≠ h.next) :
    copyEntries h (e :: rest) =
      (⟨⟨e.key.length, h.next, .free, h.next⟩,
        ⟨e.value.length, h.next + 1, .free, h.next + 1⟩⟩ ::
          (copyEntries (stepHeap h e) rest).1,
       (copyEntries (stepHeap h e) rest).2) := by
  have hcongr :
      Heap.readBytes ⟨h.next + 1,
          (h.next, Block.bytes (h.readBytes e.key.bytes e.key.length)) :: h.blocks⟩
        e.value.bytes e.value.length = h.readBytes e.value.bytes e.value.length :=
    readBytes_congr _ (lookup_cons_ne _ hvb)
  simp only [copyEntries]
  rw [copy_envoy_data_eq h _ _ hwf]
  rw [copy_envoy_data_eq _ _ _ (Heap.wf_cons_fresh hwf _)]
  simp only [stepHeap, hcongr]

theorem stepHeap_next (h : Heap) (e : envoy_header) :
    (stepHeap h e).next = h.next + 1 + 1 := rfl

theorem stepHeap_wf {h : Heap} (hwf : h.WF) (e : envoy_header) :
    (stepHeap h e).WF :=
  Heap.wf_cons_fresh (Heap.wf_cons_fresh hwf _) _

theorem stepHeap_lookup (h : Heap) (e : envoy_header) {a : Nat}
    (h1 : a ≠ h.next) (h2 : a ≠ h.next + 1) :
    (stepHeap h e).lookup a = h.lookup a := by
  simp [stepHeap, Heap.lookup, blocksLookup, Ne.symm h1, Ne.symm h2]

theorem stepHeap_lookup_key (h : Heap) (e : envoy_header) :
    (stepHeap h e).lookup h.next =
      some (.bytes (h.readBytes e.key.bytes e.key.length)) := by
  simp [stepHeap, Heap.lookup, blocksLookup]

theorem stepHeap_lookup_value (h : Heap) (e : envoy_header) :
    (stepHeap h e).lookup (h.next + 1) =
      some (.bytes (h.readBytes e.value.bytes e.value.length)) := by
  simp [stepHeap, Heap.lookup, blocksLookup]

theorem copyEntries_spec :
    ∀ (es : List envoy_header) (h : Heap), h.WF →
      (∀ e ∈ es, e.key.bytes < h.next ∧ e.value.bytes < h.next) →
      h.next ≤ (copyEntries h es).2.next ∧ (copyEntries h es).2.WF ∧
      (∀ a, a < h.next → (copyEntries h es).2.lookup a = h.lookup a) ∧
      List.Forall₂ (CopiedEntry h (copyEntries h es).2) es (copyEntries h es).1 := by
  intro es
  induction es with
  | nil =>
    intro h hwf _
    exact ⟨le_refl _, hwf, fun a _ => rfl, List.Forall₂.nil⟩
  | cons e rest ih =>
    intro h hwf hsrc
    obtain ⟨hkb, hvb⟩ := hsrc e (List.mem_cons_self _ _)
    rw [copyEntries_cons_eq h e rest hwf (Nat.ne_of_lt hvb)]
    have hwfS : (stepHeap h e).WF := stepHeap_wf hwf e
    have hSnext : (stepHeap h e).next = h.next + 1 + 1 := stepHeap_next h e
    have hsrcS : ∀ e2 ∈ rest,
        e2.key.bytes < (stepHeap h e).next ∧ e2.value.bytes < (stepHeap h e).next := by
      intro e2 he2
      obtain ⟨hb1, hb2⟩ := hsrc e2 (List.mem_cons_of_mem _ he2)
      rw [hSnext]
      omega
    obtain ⟨ihnext, ihwf, ihframe, ihfa⟩ := ih (stepHeap h e) hwfS hsrcS
    have hstepframe : ∀ a, a < h.next → (stepHeap h e).lookup a = h.lookup a := by
      intro a ha
      exact stepHeap_lookup h e (by omega) (by omega)
    have hle : h.next ≤ (stepHeap h e).next := by rw [hSnext]; omega
    refine ⟨le_trans hle ihnext, ihwf, ?_, ?_⟩
    · intro a ha
      rw [ihframe a (lt_of_lt_of_le ha hle), hstepframe a ha]
    · refine List.Forall₂.cons ⟨?_, ?_⟩ ?_
      · refine ⟨rfl, rfl, rfl, le_refl _, ?_, ?_⟩
        · show h.next < _
          exact lt_of_lt_of_le (by rw [hSnext]; omega) ihnext
        · show (copyEntries (stepHeap h e) rest).2.lookup h.next = _
          rw [ihframe h.next (by rw [hSnext]; omega)]
          exact stepHeap_lookup_key h e
      · refine ⟨rfl, rfl, rfl, Nat.le_succ _, ?_, ?_⟩
        · show h.next + 1 < _
          exact lt_of_lt_of_le (by rw [hSnext]; omega) ihnext
        · show (copyEntries (stepHeap h e) rest).2.lookup (h.next + 1) = _
          rw [ihframe (h.next + 1) (by rw [hSnext]; omega)]
          exact stepHeap_lookup_value h e
      · refine forall₂_imp_mem ihfa ?_
        intro a b ha hr
        obtain ⟨hb1, hb2⟩ := hsrc a (List.mem_cons_of_mem _ ha)
        exact ⟨hr.1.mono_left hle (hstepframe _ hb1),
               hr.2.mono_left hle (hstepframe _ hb2)⟩

theorem releaseData_trace (h : Heap) (d : envoy_data) :
    (releaseData h d).2 = relOnce d := by
  cases hd : d.release <;> simp [releaseData, relOnce, hd]

theorem releaseData_next (h : Heap) (d : envoy_data) :
    (releaseData h d).1.next = h.next := by
  cases hd : d.release <;> simp [releaseData, hd, Heap.free]

theorem releaseData_frame (h : Heap) (d : envoy_data) {a : Nat} (ha : a ≠ d.context) :
    (releaseData h d).1.lookup a = h.lookup a := by
  cases hd : d.release <;> simp [releaseData, hd]
  exact Heap.free_lookup_ne h ha

theorem releaseEntries_trace : ∀ (es : List envoy_header) (h : Heap),
    (releaseEntries h es).2 = entriesEvents es := by
  intro es
  induction es with
  | nil => intro h; rfl
  | cons e rest ih =>
    intro h
    simp only [releaseEntries, entriesEvents]
    rw [releaseData_trace, releaseData_trace, ih]

theorem releaseEntries_frame : ∀ (es : List envoy_header) (h : Heap) (N : Nat),
    (∀ e ∈ es, N ≤ e.key.context ∧ N ≤ e.value.context) →
    ∀ a, a < N → (releaseEntries h es).1.lookup a = h.lookup a := by
  intro es
  induction es with
  | nil => intro h N _ a _; rfl
  | cons e rest ih =>
    intro h N hctx a ha
    obtain ⟨hk, hv⟩ := hctx e (List.mem_cons_self _ _)
    simp only [releaseEntries]
    rw [ih _ N (fun e2 he2 => hctx e2 (List.mem_cons_of_mem _ he2)) a ha]
    rw [releaseData_frame _ _ (by omega), releaseData_frame _ _ (by omega)]

theorem readHArray_of_lookup {h : Heap} {a : Nat} {entries : List envoy_header}
    (hl : h.lookup a = some (.harray entries)) : h.readHArray a = entries := by
  unfold Heap.readHArray
  rw [hl]

theorem readBytes_zero (h : Heap) (a : Nat) : h.readBytes a 0 = [] := by
  unfold Heap.readBytes
  cases h.lookup a with
  | none => rfl
  | some b => cases b <;> simp

theorem readBytes_of_lookup {h : Heap} {a : Nat} {bs : List Nat} (n : Nat)
    (hl : h.lookup a = some (.bytes bs)) : h.readBytes a n = bs.take n := by
  unfold Heap.readBytes
  rw [hl]

theorem lookup_mk_cons_self (nx a : Nat) (b : Block) (l : List (Nat × Block)) :
    Heap.lookup ⟨nx, (a, b) :: l⟩ a = some b := by
  simp [Heap.lookup, blocksLookup]

theorem readBytes_none {h : Heap} {a : Nat} (hl : h.lookup a = none) (n : Nat) :
    h.readBytes a n = [] := by
  unfold Heap.readBytes
  rw [hl]

instance (h : Heap) : Decidable h.WF := by
  unfold Heap.WF
  infer_instance

theorem headersWF_src_bounds {h : Heap} {hs : envoy_headers} (hwf : h.WF)
    (hhs : headersWF h hs) :
    ∀ e ∈ h.readHArray hs.headers, e.key.bytes < h.next ∧ e.value.bytes < h.next := by
  obtain ⟨entries, hl, _, _, hdw⟩ := hhs
  rw [readHArray_of_lookup hl]
  intro e he
  obtain ⟨⟨bsk, hlk, _⟩, ⟨bsv, hlv, _⟩⟩ := hdw e he
  exact ⟨(Heap.lookup_bounds hwf hlk).2, (Heap.lookup_bounds hwf hlv).2⟩

theorem headersWF_length_toNat {h : Heap} {hs : envoy_headers} (hhs : headersWF h hs) :
    hs.length.toNat = (h.readHArray hs.headers).length := by
  obtain ⟨entries, hl, hlen, _, _⟩ := hhs
  rw [readHArray_of_lookup hl, hlen, Int.toNat_natCast]

theorem headersWF_take_eq {h : Heap} {hs : envoy_headers} (hhs : headersWF h hs) :
    (h.readHArray hs.headers).take hs.length.toNat = h.readHArray hs.headers := by
  obtain ⟨entries, hl, hlen, _, _⟩ := hhs
  rw [readHArray_of_lookup hl, hlen, Int.toNat_natCast, List.take_length]

/-- C3: for every length `n` and source byte array of `n` bytes,
`copy_envoy_data(n, src)` returns a buffer of length `n` whose content is
byte-for-byte identical to the source, whose backing storage address
differs from the source's, and whose attached release function frees
exactly that newly allocated storage and nothing else. -/
theorem copy_envoy_data_correct (h : Heap) (n src : Nat) (bs : List Nat)
    (hwf : h.WF) (hsrc : h.lookup src = some (.bytes bs)) (hlen : bs.length = n) :
    (copy_envoy_data h n src).1.length = n ∧
    (copy_envoy_data h n src).2.readBytes (copy_envoy_data h n src).1.bytes n = bs ∧
    (copy_envoy_data h n src).1.bytes ≠ src ∧
    (copy_envoy_data h n src).1.release = .free ∧
    (releaseData (copy_envoy_data h n src).2 (copy_envoy_data h n src).1).1.lookup
      (copy_envoy_data h n src).1.bytes = none ∧
    (∀ a, a ≠ (copy_envoy_data h n src).1.bytes →
      (releaseData (copy_envoy_data h n src).2 (copy_envoy_data h n src).1).1.lookup a =
        (copy_envoy_data h n src).2.lookup a) := by
  have hread : h.readBytes src n = bs := by
    rw [readBytes_of_lookup n hsrc, ← hlen, List.take_length]
  have hsrclt : src < h.next := (Heap.lookup_bounds hwf hsrc).2
  rw [copy_envoy_data_eq h n src hwf]
  dsimp only
  refine ⟨rfl, ?_, by omega, rfl, ?_, ?_⟩
  · rw [readBytes_of_lookup n (lookup_mk_cons_self _ _ _ _), hread, ← hlen,
      List.take_length]
  · simp only [releaseData]
    exact Heap.free_lookup_self _ _
  · intro a ha
    simp only [releaseData]
    exact Heap.free_lookup_ne _ ha

/-- Any theorem with a hypothesis gets a closed instance: here C3 applied
to a two-byte source buffer. -/
theorem copy_envoy_data_correct_witness :
    Heap.WF ⟨2, [(1, Block.bytes [7, 8])]⟩ ∧
    Heap.lookup ⟨2, [(1, Block.bytes [7, 8])]⟩ 1 = some (.bytes [7, 8]) ∧
    ([7, 8] : List Nat).length = 2 ∧
    ((copy_envoy_data ⟨2, [(1, Block.bytes [7, 8])]⟩ 2 1).1.length = 2 ∧
     (copy_envoy_data ⟨2, [(1, Block.bytes [7, 8])]⟩ 2 1).2.readBytes
       (copy_envoy_data ⟨2, [(1, Block.bytes [7, 8])]⟩ 2 1).1.bytes 2 = [7, 8] ∧
     (copy_envoy_data ⟨2, [(1, Block.bytes [7, 8])]⟩ 2 1).1.bytes ≠ 1 ∧
     (copy_envoy_data ⟨2, [(1, Block.bytes [7, 8])]⟩ 2 1).1.release = .free ∧
     (releaseData (copy_envoy_data ⟨2, [(1, Block.bytes [7, 8])]⟩ 2 1).2
        (copy_envoy_data ⟨2, [(1, Block.bytes [7, 8])]⟩ 2 1).1).1.lookup
       (copy_envoy_data ⟨2, [(1, Block.bytes [7, 8])]⟩ 2 1).1.bytes = none ∧
     (∀ a, a ≠ (copy_envoy_data ⟨2, [(1, Block.bytes [7, 8])]⟩ 2 1).1.bytes →
       (releaseData (copy_envoy_data ⟨2, [(1, Block.bytes [7, 8])]⟩ 2 1).2
          (copy_envoy_data ⟨2, [(1, Block.bytes [7, 8])]⟩ 2 1).1).1.lookup a =
         (copy_envoy_data ⟨2, [(1, Block.bytes [7, 8])]⟩ 2 1).2.lookup a)) :=
  ⟨by decide, by decide, rfl,
   copy_envoy_data_correct ⟨2, [(1, Block.bytes [7, 8])]⟩ 2 1 [7, 8]
     (by decide) (by decide) rfl⟩

/-- C8: `safe_malloc`, `safe_calloc` and `copy_envoy_data` never hand a
null or partially constructed result back to the caller: in every
returning execution the result is a fresh non-null allocation of the
requested size (the fail-fast abort path never returns and so has no
returning execution to model); no error value exists in their result
types. -/
theorem allocation_fail_fast (h : Heap) (n count size src : Nat) (hwf : h.WF) :
    ((safe_malloc h n).1 ≠ 0 ∧
      (safe_malloc h n).2.lookup (safe_malloc h n).1 =
        some (.bytes (List.replicate n 0))) ∧
    ((safe_calloc h count size).1 ≠ 0 ∧
      (safe_calloc h count size).2.lookup (safe_calloc h count size).1 =
        some (.bytes (List.replicate (count * size) 0))) ∧
    ((copy_envoy_data h n src).1.bytes ≠ 0 ∧
      (copy_envoy_data h n src).1.release = .free ∧
      (copy_envoy_data h n src).2.lookup (copy_envoy_data h n src).1.bytes =
        some (.bytes (h.readBytes src n))) := by
  have h0 : h.next ≠ 0 := Nat.pos_iff_ne_zero.mp hwf.1
  refine ⟨⟨h0, ?_⟩, ⟨h0, ?_⟩, ?_⟩
  · simp [safe_malloc, Heap.alloc, Heap.lookup, blocksLookup]
  · simp [safe_calloc, Heap.alloc, Heap.lookup, blocksLookup]
  · rw [copy_envoy_data_eq h n src hwf]
    dsimp only
    exact ⟨h0, rfl, lookup_mk_cons_self _ _ _ _⟩

/-- C8 applied to a concrete well-formed heap. -/
theorem allocation_fail_fast_witness :
    Heap.WF ⟨1, []⟩ ∧
    (((safe_malloc ⟨1, []⟩ 3).1 ≠ 0 ∧
      (safe_malloc ⟨1, []⟩ 3).2.lookup (safe_malloc ⟨1, []⟩ 3).1 =
        some (.bytes (List.replicate 3 0))) ∧
    ((safe_calloc ⟨1, []⟩ 2 4).1 ≠ 0 ∧
      (safe_calloc ⟨1, []⟩ 2 4).2.lookup (safe_calloc ⟨1, []⟩ 2 4).1 =
        some (.bytes (List.replicate (2 * 4) 0))) ∧
    ((copy_envoy_data ⟨1, []⟩ 3 0).1.bytes ≠ 0 ∧
      (copy_envoy_data ⟨1, []⟩ 3 0).1.release = .free ∧
      (copy_envoy_data ⟨1, []⟩ 3 0).2.lookup (copy_envoy_data ⟨1, []⟩ 3 0).1.bytes =
        some (.bytes (Heap.readBytes ⟨1, []⟩ 0 3)))) :=
  ⟨by decide, allocation_fail_fast ⟨1, []⟩ 3 2 4 0 (by decide)⟩

/-- C9: `copy_envoy_data(0, null)` yields a zero-length owned buffer (its
release function is non-null), the release target is a valid zero-byte
allocation, and invoking the release changes no readable byte anywhere. -/
theorem copy_zero_length_owned (h : Heap) (hwf : h.WF) :
    (copy_envoy_data h 0 0).1.length = 0 ∧
    (copy_envoy_data h 0 0).1.release ≠ .null ∧
    (copy_envoy_data h 0 0).2.lookup (copy_envoy_data h 0 0).1.context =
      some (.bytes []) ∧
    (∀ a n, (releaseData (copy_envoy_data h 0 0).2
        (copy_envoy_data h 0 0).1).1.readBytes a n =
      (copy_envoy_data h 0 0).2.readBytes a n) := by
  have hz : h.readBytes 0 0 = [] := readBytes_zero h 0
  rw [copy_envoy_data_eq h 0 0 hwf]
  dsimp only
  refine ⟨rfl, by simp, ?_, ?_⟩
  · rw [lookup_mk_cons_self, hz]
  · intro a n
    simp only [releaseData]
    by_cases ha : a = h.next
    · subst ha
      rw [readBytes_none (Heap.free_lookup_self _ _) n,
        readBytes_of_lookup n (lookup_mk_cons_self _ _ _ _), hz, List.take_nil]
    · exact readBytes_congr n (Heap.free_lookup_ne _ ha)

/-- C9 applied to a concrete well-formed heap. -/
theorem copy_zero_length_owned_witness :
    Heap.WF ⟨1, []⟩ ∧
    ((copy_envoy_data ⟨1, []⟩ 0 0).1.length = 0 ∧
     (copy_envoy_data ⟨1, []⟩ 0 0).1.release ≠ .null ∧
     (copy_envoy_data ⟨1, []⟩ 0 0).2.lookup (copy_envoy_data ⟨1, []⟩ 0 0).1.context =
       some (.bytes []) ∧
     (∀ a n, (releaseData (copy_envoy_data ⟨1, []⟩ 0 0).2
         (copy_envoy_data ⟨1, []⟩ 0 0).1).1.readBytes a n =
       (copy_envoy_data ⟨1, []⟩ 0 0).2.readBytes a n)) :=
  ⟨by decide, copy_zero_length_owned ⟨1, []⟩ (by decide)⟩

/-- C10: the entry count of a header collection is the signed
`envoy_header_size_t` (C `int`): a well-formed collection's count lies in
`[0, 2^31 - 1]`, the type itself admits negative values, and byte-buffer
lengths are the unsigned `size_t`, embedded as `Nat`, hence never
negative. -/
theorem header_count_signed_int (h : Heap) (hs : envoy_headers)
    (hhs : headersWF h hs) :
    (0 ≤ hs.length ∧ hs.length ≤ int_max) ∧
    (∃ bad : envoy_headers, bad.length < 0) ∧
    (∀ d : envoy_data, 0 ≤ (d.length : Int)) := by
  obtain ⟨entries, _, hlen, hmax, _⟩ := hhs
  refine ⟨⟨?_, ?_⟩, ⟨⟨-1, 0⟩, by decide⟩, fun d => Int.natCast_nonneg _⟩
  · rw [hlen]
    exact Int.natCast_nonneg _
  · rw [hlen]
    exact hmax

/-- C10 applied to a concrete one-entry collection. -/
theorem header_count_signed_int_witness :
    headersWF ⟨2, [(1, Block.harray [])]⟩ ⟨0, 1⟩ ∧
    ((0 ≤ (⟨0, 1⟩ : envoy_headers).length ∧
      (⟨0, 1⟩ : envoy_headers).length ≤ int_max) ∧
     (∃ bad : envoy_headers, bad.length < 0) ∧
     (∀ d : envoy_data, 0 ≤ (d.length : Int))) :=
  ⟨⟨[], by decide, by decide, by decide, by simp⟩,
   header_count_signed_int ⟨2, [(1, Block.harray [])]⟩ ⟨0, 1⟩
     ⟨[], by decide, by decide, by decide, by simp⟩⟩

/-- C5: `release_envoy_headers` invokes the release function of every
entry's key buffer and value buffer exactly once each (skipping buffers
whose release function is null) — the recorded invocation list is exactly
one `relOnce` per buffer, key before value, in entry order — then frees the
entry array; on a collection of length 0 with a null entry array the call
is a no-op. -/
theorem release_envoy_headers_correct (h : Heap) (hs : envoy_headers) (hwf : h.WF) :
    (release_envoy_headers h hs).2 =
      entriesEvents ((h.readHArray hs.headers).take hs.length.toNat) ∧
    (release_envoy_headers h hs).1.lookup hs.headers = none ∧
    (hs.length = 0 → hs.headers = 0 → release_envoy_headers h hs = (h, [])) := by
  refine ⟨?_, ?_, ?_⟩
  · exact releaseEntries_trace _ _
  · exact Heap.free_lookup_self _ _
  · intro h0 hn
    unfold release_envoy_headers
    rw [h0, hn]
    show ((releaseEntries h ((h.readHArray 0).take (0 : Int).toNat)).1.free 0,
          (releaseEntries h ((h.readHArray 0).take (0 : Int).toNat)).2) = (h, [])
    rw [Int.toNat_zero, List.take_zero]
    show (h.free 0, ([] : List ReleaseEvent)) = (h, [])
    unfold Heap.free
    rw [blocksRemove_of_ne (fun p hp => Nat.pos_iff_ne_zero.mp (hwf.2 p hp).1)]

/-- C5 applied to a one-entry collection whose key buffer is owned
(`free`) and whose value buffer has a null release function. -/
theorem release_envoy_headers_correct_witness :
    Heap.WF ⟨4, [(1, Block.harray [⟨⟨1, 2, .free, 2⟩, ⟨1, 3, .null, 0⟩⟩]),
                 (2, Block.bytes [5]), (3, Block.bytes [6])]⟩ ∧
    ((release_envoy_headers ⟨4, [(1, Block.harray [⟨⟨1, 2, .free, 2⟩, ⟨1, 3, .null, 0⟩⟩]),
        (2, Block.bytes [5]), (3, Block.bytes [6])]⟩ ⟨1, 1⟩).2 =
      entriesEvents ((Heap.readHArray ⟨4, [(1, Block.harray [⟨⟨1, 2, .free, 2⟩, ⟨1, 3, .null, 0⟩⟩]),
        (2, Block.bytes [5]), (3, Block.bytes [6])]⟩ 1).take (1 : Int).toNat) ∧
    (release_envoy_headers ⟨4, [(1, Block.harray [⟨⟨1, 2, .free, 2⟩, ⟨1, 3, .null, 0⟩⟩]),
        (2, Block.bytes [5]), (3, Block.bytes [6])]⟩ ⟨1, 1⟩).1.lookup 1 = none ∧
    ((1 : Int) = 0 → (1 : Nat) = 0 →
      release_envoy_headers ⟨4, [(1, Block.harray [⟨⟨1, 2, .free, 2⟩, ⟨1, 3, .null, 0⟩⟩]),
        (2, Block.bytes [5]), (3, Block.bytes [6])]⟩ ⟨1, 1⟩ =
        (⟨4, [(1, Block.harray [⟨⟨1, 2, .free, 2⟩, ⟨1, 3, .null, 0⟩⟩]),
          (2, Block.bytes [5]), (3, Block.bytes [6])]⟩, []))) :=
  ⟨by decide,
   release_envoy_headers_correct ⟨4, [(1, Block.harray [⟨⟨1, 2, .free, 2⟩, ⟨1, 3, .null, 0⟩⟩]),
     (2, Block.bytes [5]), (3, Block.bytes [6])]⟩ ⟨1, 1⟩ (by decide)⟩

theorem copy_envoy_headers_eq (h : Heap) (src : envoy_headers) :
    copy_envoy_headers h src =
      (⟨src.length,
        (copyEntries h ((h.readHArray src.headers).take src.length.toNat)).2.next⟩,
       ⟨(copyEntries h ((h.readHArray src.headers).take src.length.toNat)).2.next + 1,
        ((copyEntries h ((h.readHArray src.headers).take src.length.toNat)).2.next,
          Block.harray (copyEntries h ((h.readHArray src.headers).take src.length.toNat)).1) ::
          (copyEntries h ((h.readHArray src.headers).take src.length.toNat)).2.blocks⟩) := rfl

/-- C4: `copy_envoy_headers(src)` returns a collection with the same entry
count, a newly allocated entry array (its address is fresh and distinct
from the source's), holding one deep copy per source entry: each copied
entry's key and value buffers are made by the byte-buffer copy primitive
(owned via `free`, fresh storage at or above the pre-call allocation bound,
content identical to the source buffer), while all source buffers live
strictly below that bound — so the copy's lifetime is independent of the
source. -/
theorem copy_envoy_headers_deep_copy (h : Heap) (hs : envoy_headers)
    (hwf : h.WF) (hhs : headersWF h hs) :
    (copy_envoy_headers h hs).1.length = hs.length ∧
    h.next ≤ (copy_envoy_headers h hs).1.headers ∧
    (copy_envoy_headers h hs).1.headers ≠ hs.headers ∧
    (∀ e ∈ h.readHArray hs.headers, e.key.bytes < h.next ∧ e.value.bytes < h.next) ∧
    (∃ copied, (copy_envoy_headers h hs).2.lookup (copy_envoy_headers h hs).1.headers =
        some (.harray copied) ∧
      List.Forall₂ (CopiedEntry h (copy_envoy_headers h hs).2)
        (h.readHArray hs.headers) copied) := by
  have htake := headersWF_take_eq hhs
  have hbounds := headersWF_src_bounds hwf hhs
  obtain ⟨hnext, hwf2, hframe, hfa⟩ :=
    copyEntries_spec (h.readHArray hs.headers) h hwf hbounds
  obtain ⟨entries, hl, hlen, hmax, hdw⟩ := hhs
  have hsl : hs.headers < h.next := (Heap.lookup_bounds hwf hl).2
  rw [copy_envoy_headers_eq h hs, htake]
  dsimp only
  refine ⟨rfl, hnext, by omega, hbounds,
    ⟨(copyEntries h (h.readHArray hs.headers)).1, lookup_mk_cons_self _ _ _ _, ?_⟩⟩
  · refine forall₂_imp_mem hfa ?_
    intro a b _ hr
    obtain ⟨hrk, hrv⟩ := hr
    exact ⟨hrk.mono_right (Nat.le_succ _)
             (lookup_cons_ne _ (Nat.ne_of_lt hrk.2.2.2.2.1)),
           hrv.mono_right (Nat.le_succ _)
             (lookup_cons_ne _ (Nat.ne_of_lt hrv.2.2.2.2.1))⟩

/-- C4 applied to a one-entry collection (key buffer `[10]`, value buffer
`[20, 21]`). -/
theorem copy_envoy_headers_deep_copy_witness :
    Heap.WF ⟨4, [(1, Block.harray [⟨⟨1, 2, .noop, 0⟩, ⟨2, 3, .null, 0⟩⟩]),
                 (2, Block.bytes [10]), (3, Block.bytes [20, 21])]⟩ ∧
    headersWF ⟨4, [(1, Block.harray [⟨⟨1, 2, .noop, 0⟩, ⟨2, 3, .null, 0⟩⟩]),
                   (2, Block.bytes [10]), (3, Block.bytes [20, 21])]⟩ ⟨1, 1⟩ ∧
    ((copy_envoy_headers ⟨4, [(1, Block.harray [⟨⟨1, 2, .noop, 0⟩, ⟨2, 3, .null, 0⟩⟩]),
         (2, Block.bytes [10]), (3, Block.bytes [20, 21])]⟩ ⟨1, 1⟩).1.length = 1 ∧
     4 ≤ (copy_envoy_headers ⟨4, [(1, Block.harray [⟨⟨1, 2, .noop, 0⟩, ⟨2, 3, .null, 0⟩⟩]),
         (2, Block.bytes [10]), (3, Block.bytes [20, 21])]⟩ ⟨1, 1⟩).1.headers ∧
     (copy_envoy_headers ⟨4, [(1, Block.harray [⟨⟨1, 2, .noop, 0⟩, ⟨2, 3, .null, 0⟩⟩]),
         (2, Block.bytes [10]), (3, Block.bytes [20, 21])]⟩ ⟨1, 1⟩).1.headers ≠ 1 ∧
     (∀ e ∈ Heap.readHArray ⟨4, [(1, Block.harray [⟨⟨1, 2, .noop, 0⟩, ⟨2, 3, .null, 0⟩⟩]),
         (2, Block.bytes [10]), (3, Block.bytes [20, 21])]⟩ 1,
       e.key.bytes < 4 ∧ e.value.bytes < 4) ∧
     (∃ copied, (copy_envoy_headers ⟨4, [(1, Block.harray [⟨⟨1, 2, .noop, 0⟩, ⟨2, 3, .null, 0⟩⟩]),
           (2, Block.bytes [10]), (3, Block.bytes [20, 21])]⟩ ⟨1, 1⟩).2.lookup
         (copy_envoy_headers ⟨4, [(1, Block.harray [⟨⟨1, 2, .noop, 0⟩, ⟨2, 3, .null, 0⟩⟩]),
           (2, Block.bytes [10]), (3, Block.bytes [20, 21])]⟩ ⟨1, 1⟩).1.headers =
           some (.harray copied) ∧
       List.Forall₂ (CopiedEntry ⟨4, [(1, Block.harray [⟨⟨1, 2, .noop, 0⟩, ⟨2, 3, .null, 0⟩⟩]),
           (2, Block.bytes [10]), (3, Block.bytes [20, 21])]⟩
         (copy_envoy_headers ⟨4, [(1, Block.harray [⟨⟨1, 2, .noop, 0⟩, ⟨2, 3, .null, 0⟩⟩]),
           (2, Block.bytes [10]), (3, Block.bytes [20, 21])]⟩ ⟨1, 1⟩).2)
         (Heap.readHArray ⟨4, [(1, Block.harray [⟨⟨1, 2, .noop, 0⟩, ⟨2, 3, .null, 0⟩⟩]),
           (2, Block.bytes [10]), (3, Block.bytes [20, 21])]⟩ 1) copied)) :=
  ⟨by decide,
   ⟨[⟨⟨1, 2, .noop, 0⟩, ⟨2, 3, .null, 0⟩⟩], by decide, by decide, by decide,
    by
      intro e he
      rw [List.mem_singleton] at he
      subst he
      exact ⟨⟨[10], by decide, by decide⟩, ⟨[20, 21], by decide, by decide⟩⟩⟩,
   copy_envoy_headers_deep_copy
     ⟨4, [(1, Block.harray [⟨⟨1, 2, .noop, 0⟩, ⟨2, 3, .null, 0⟩⟩]),
          (2, Block.bytes [10]), (3, Block.bytes [20, 21])]⟩ ⟨1, 1⟩
     (by decide)
     ⟨[⟨⟨1, 2, .noop, 0⟩, ⟨2, 3, .null, 0⟩⟩], by decide, by decide, by decide,
      by
        intro e he
        rw [List.mem_singleton] at he
        subst he
        exact ⟨⟨[10], by decide, by decide⟩, ⟨[20, 21], by decide, by decide⟩⟩⟩⟩

theorem roundTrip_frame (h : Heap) (hs : envoy_headers) (hwf : h.WF)
    (hhs : headersWF h hs) :
    ∀ a, a < h.next → (roundTrip h hs).lookup a = h.lookup a := by
  have htake := headersWF_take_eq hhs
  have hbounds := headersWF_src_bounds hwf hhs
  obtain ⟨hnext, hwf2, hframe, hfa⟩ :=
    copyEntries_spec (h.readHArray hs.headers) h hwf hbounds
  have hctx : ∀ e2 ∈ (copyEntries h (h.readHArray hs.headers)).1,
      h.next ≤ e2.key.context ∧ h.next ≤ e2.value.context := by
    intro e2 he2
    obtain ⟨e, _, ⟨hrk, hrv⟩⟩ := forall₂_mem_right hfa e2 he2
    refine ⟨?_, ?_⟩
    · rw [hrk.2.2.1]
      exact hrk.2.2.2.1
    · rw [hrv.2.2.1]
      exact hrv.2.2.2.1
  intro a ha
  unfold roundTrip
  rw [copy_envoy_headers_eq h hs, htake]
  dsimp only
  unfold release_envoy_headers
  dsimp only
  rw [readHArray_of_lookup (lookup_mk_cons_self _ _ _ _)]
  rw [headersWF_length_toNat hhs, List.Forall₂.length_eq hfa, List.take_length]
  have hne1 : a ≠ (copyEntries h (h.readHArray hs.headers)).2.next := by omega
  rw [Heap.free_lookup_ne _ hne1]
  rw [releaseEntries_frame _ _ h.next hctx a ha]
  rw [lookup_cons_ne _ hne1]
  exact hframe a ha

/-- C2: copying a header collection and releasing the copy leaves the
original completely unchanged and fully valid: its entry array block, the
readable bytes of every entry's key and value buffers, and its
well-formedness are identical before and after the round trip. -/
theorem headers_roundtrip_preserves_original (h : Heap) (hs : envoy_headers)
    (hwf : h.WF) (hhs : headersWF h hs) :
    (roundTrip h hs).lookup hs.headers = h.lookup hs.headers ∧
    (∀ e ∈ h.readHArray hs.headers,
      (roundTrip h hs).readBytes e.key.bytes e.key.length =
        h.readBytes e.key.bytes e.key.length ∧
      (roundTrip h hs).readBytes e.value.bytes e.value.length =
        h.readBytes e.value.bytes e.value.length) ∧
    headersWF (roundTrip h hs) hs := by
  have hframe := roundTrip_frame h hs hwf hhs
  have hbounds := headersWF_src_bounds hwf hhs
  obtain ⟨entries, hl, hlen, hmax, hdw⟩ := hhs
  have hsl : hs.headers < h.next := (Heap.lookup_bounds hwf hl).2
  refine ⟨hframe _ hsl, ?_, ?_⟩
  · intro e he
    obtain ⟨hkb, hvb⟩ := hbounds e he
    exact ⟨readBytes_congr _ (hframe _ hkb), readBytes_congr _ (hframe _ hvb)⟩
  · refine ⟨entries, ?_, hlen, hmax, ?_⟩
    · rw [hframe _ hsl]
      exact hl
    · intro e he
      have hee : e ∈ h.readHArray hs.headers := by
        rw [readHArray_of_lookup hl]
        exact he
      obtain ⟨hkb, hvb⟩ := hbounds e hee
      obtain ⟨⟨bsk, hlk, hbk⟩, ⟨bsv, hlv, hbv⟩⟩ := hdw e he
      exact ⟨⟨bsk, by rw [hframe _ hkb]; exact hlk, hbk⟩,
             ⟨bsv, by rw [hframe _ hvb]; exact hlv, hbv⟩⟩

/-- C2 applied to a one-entry collection (key buffer `[10]`, value buffer
`[20, 21]`). -/
theorem headers_roundtrip_preserves_original_witness :
    Heap.WF ⟨4, [(1, Block.harray [⟨⟨1, 2, .noop, 0⟩, ⟨2, 3, .null, 0⟩⟩]),
        (2, Block.bytes [10]), (3, Block.bytes [20, 21])]⟩ ∧
    headersWF ⟨4, [(1, Block.harray [⟨⟨1, 2, .noop, 0⟩, ⟨2, 3, .null, 0⟩⟩]),
        (2, Block.bytes [10]), (3, Block.bytes [20, 21])]⟩ ⟨1, 1⟩ ∧
    ((roundTrip ⟨4, [(1, Block.harray [⟨⟨1, 2, .noop, 0⟩, ⟨2, 3, .null, 0⟩⟩]),
        (2, Block.bytes [10]), (3, Block.bytes [20, 21])]⟩ ⟨1, 1⟩).lookup 1 =
       Heap.lookup ⟨4, [(1, Block.harray [⟨⟨1, 2, .noop, 0⟩, ⟨2, 3, .null, 0⟩⟩]),
        (2, Block.bytes [10]), (3, Block.bytes [20, 21])]⟩ 1 ∧
     (∀ e ∈ Heap.readHArray ⟨4, [(1, Block.harray [⟨⟨1, 2, .noop, 0⟩, ⟨2, 3, .null, 0⟩⟩]),
        (2, Block.bytes [10]), (3, Block.bytes [20, 21])]⟩ 1,
       (roundTrip ⟨4, [(1, Block.harray [⟨⟨1, 2, .noop, 0⟩, ⟨2, 3, .null, 0⟩⟩]),
        (2, Block.bytes [10]), (3, Block.bytes [20, 21])]⟩ ⟨1, 1⟩).readBytes e.key.bytes e.key.length =
         Heap.readBytes ⟨4, [(1, Block.harray [⟨⟨1, 2, .noop, 0⟩, ⟨2, 3, .null, 0⟩⟩]),
        (2, Block.bytes [10]), (3, Block.bytes [20, 21])]⟩ e.key.bytes e.key.length ∧
       (roundTrip ⟨4, [(1, Block.harray [⟨⟨1, 2, .noop, 0⟩, ⟨2, 3, .null, 0⟩⟩]),
        (2, Block.bytes [10]), (3, Block.bytes [20, 21])]⟩ ⟨1, 1⟩).readBytes e.value.bytes e.value.length =
         Heap.readBytes ⟨4, [(1, Block.harray [⟨⟨1, 2, .noop, 0⟩, ⟨2, 3, .null, 0⟩⟩]),
        (2, Block.bytes [10]), (3, Block.bytes [20, 21])]⟩ e.value.bytes e.value.length) ∧
     headersWF (roundTrip ⟨4, [(1, Block.harray [⟨⟨1, 2, .noop, 0⟩, ⟨2, 3, .null, 0⟩⟩]),
        (2, Block.bytes [10]), (3, Block.bytes [20, 21])]⟩ ⟨1, 1⟩) ⟨1, 1⟩) :=
  ⟨by decide,
   ⟨[⟨⟨1, 2, .noop, 0⟩, ⟨2, 3, .null, 0⟩⟩], by decide, by decide, by decide,
    by
      intro e he
      rw [List.mem_singleton] at he
      subst he
      exact ⟨⟨[10], by decide, by decide⟩, ⟨[20, 21], by decide, by decide⟩⟩⟩,
   headers_roundtrip_preserves_original
     ⟨4, [(1, Block.harray [⟨⟨1, 2, .noop, 0⟩, ⟨2, 3, .null, 0⟩⟩]),
        (2, Block.bytes [10]), (3, Block.bytes [20, 21])]⟩ ⟨1, 1⟩
     (by decide)
     ⟨[⟨⟨1, 2, .noop, 0⟩, ⟨2, 3, .null, 0⟩⟩], by decide, by decide, by decide,
      by
        intro e he
        rw [List.mem_singleton] at he
        subst he
        exact ⟨⟨[10], by decide, by decide⟩, ⟨[20, 21], by decide, by decide⟩⟩⟩⟩

theorem stepFn_closed_none : ∀ e : CallbackEvent, stepFn .closed e = none := by
  decide

theorem stepFn_terminal_closed : ∀ (s : StreamState) (e : CallbackEvent)
    (s2 : StreamState), stepFn s e = some s2 → isTerminal e = true →
    s2 = .closed := by
  decide

theorem stepFn_to_closed : ∀ (s : StreamState) (e : CallbackEvent),
    stepFn s e = some .closed → isTerminal e = true ∨ isEndMarker e = true := by
  decide

theorem stepFn_data_true_closed : ∀ (s s2 : StreamState),
    stepFn s (.on_data true) = some s2 → s2 = .closed := by
  decide

theorem stepFn_no_marker_not_closed : ∀ (s0 : StreamState) (e : CallbackEvent)
    (s1 : StreamState), stepFn s0 e = some s1 → isEndMarker e = false →
    isTerminal e = false → s1 ≠ .closed := by
  decide

theorem not_closed_can_step : ∀ s : StreamState, s ≠ .closed →
    ∃ e s2, stepFn s e = some s2 := by
  decide

theorem run_closed_eq : ∀ (tr : List CallbackEvent) (s : StreamState),
    run .closed tr = some s → tr = [] ∧ s = .closed := by
  intro tr s
  cases tr with
  | nil =>
    intro h
    refine ⟨rfl, ?_⟩
    simpa [run] using h.symm
  | cons e rest =>
    intro h
    simp [run, stepFn_closed_none] at h

theorem run_append (l1 l2 : List CallbackEvent) : ∀ s : StreamState,
    run s (l1 ++ l2) = (run s l1).bind (fun s2 => run s2 l2) := by
  induction l1 with
  | nil => intro s; rfl
  | cons e rest ih =>
    intro s
    show run s (e :: (rest ++ l2)) = _
    cases hstep : stepFn s e with
    | some s2 => simp [run, hstep, ih s2]
    | none => simp [run, hstep]

theorem terminalCount_cons (e : CallbackEvent) (tr : List CallbackEvent) :
    terminalCount (e :: tr) =
      (if isTerminal e then 1 else 0) + terminalCount tr := by
  by_cases h : isTerminal e
  · simp [terminalCount, List.filter_cons, h, Nat.add_comm]
  · simp [terminalCount, List.filter_cons, h]

theorem terminalCount_append (l1 l2 : List CallbackEvent) :
    terminalCount (l1 ++ l2) = terminalCount l1 + terminalCount l2 := by
  simp [terminalCount, List.filter_append]

theorem run_terminalCount_le_one : ∀ (tr : List CallbackEvent) (s s2 : StreamState),
    run s tr = some s2 → terminalCount tr ≤ 1 := by
  intro tr
  induction tr with
  | nil =>
    intro s s2 _
    simp [terminalCount]
  | cons e rest ih =>
    intro s s2 hrun
    cases hstep : stepFn s e with
    | none => simp [run, hstep] at hrun
    | some s3 =>
      have hrest : run s3 rest = some s2 := by simpa [run, hstep] using hrun
      rw [terminalCount_cons]
      by_cases hterm : isTerminal e
      · have hclosed : s3 = .closed := stepFn_terminal_closed s e s3 hstep hterm
        subst hclosed
        obtain ⟨hnil, _⟩ := run_closed_eq rest s2 hrest
        subst hnil
        simp [hterm, terminalCount]
      · have := ih s3 s2 hrest
        simp [hterm]
        omega

theorem run_terminal_last : ∀ (pre post : List CallbackEvent) (e : CallbackEvent)
    (s0 s : StreamState), run s0 (pre ++ e :: post) = some s →
    isTerminal e = true → post = [] := by
  intro pre post e s0 s hrun hterm
  rw [run_append] at hrun
  cases hpre : run s0 pre with
  | none => rw [hpre] at hrun; cases hrun
  | some s1 =>
    rw [hpre] at hrun
    have hrun2 : run s1 (e :: post) = some s := hrun
    cases hstep : stepFn s1 e with
    | none => simp [run, hstep] at hrun2
    | some s2 =>
      have hrest : run s2 post = some s := by simpa [run, hstep] using hrun2
      have h2 : s2 = .closed := stepFn_terminal_closed _ _ _ hstep hterm
      subst h2
      exact (run_closed_eq post s hrest).1

theorem run_no_marker_not_closed : ∀ (tr : List CallbackEvent) (s0 s : StreamState),
    run s0 tr = some s → (∀ e ∈ tr, isEndMarker e = false) →
    (∀ e ∈ tr, isTerminal e = false) → s0 ≠ .closed → s ≠ .closed := by
  intro tr
  induction tr with
  | nil =>
    intro s0 s hrun _ _ h0
    have : s0 = s := by simpa [run] using hrun
    rw [← this]
    exact h0
  | cons e rest ih =>
    intro s0 s hrun hm ht h0
    cases hstep : stepFn s0 e with
    | none => simp [run, hstep] at hrun
    | some s1 =>
      have hrest : run s1 rest = some s := by simpa [run, hstep] using hrun
      refine ih s1 s hrest (fun e2 he2 => hm e2 (List.mem_cons_of_mem _ he2))
        (fun e2 he2 => ht e2 (List.mem_cons_of_mem _ he2)) ?_
      exact stepFn_no_marker_not_closed s0 e s1 hstep
        (hm e (List.mem_cons_self _ _)) (ht e (List.mem_cons_self _ _))

/-- C1 as stated fails on the modelled protocol: the sequence consisting of
a single `on_headers` call with `end_stream=true` is a valid, fully ended
stream (no callback of any kind can follow), yet none of the four terminal
callbacks is ever invoked, so "exactly one terminal callback" does not hold
across all valid callback sequences. -/
theorem terminal_exactly_once_cex :
    run .idle [.on_headers true] = some .closed ∧
    (∀ e, stepFn .closed e = none) ∧
    terminalCount [.on_headers true] = 0 := by
  decide

/-- C1 (amended): in every valid callback sequence at most one of the four
terminal callbacks is invoked, no callback of any kind follows a terminal
callback, and a stream that ends either had exactly one terminal callback
or ended implicitly with a headers/data frame carrying `end_stream=true`
as its final callback (in which case no terminal callback fires). -/
theorem terminal_at_most_once (tr : List CallbackEvent) (s : StreamState)
    (hrun : run .idle tr = some s) :
    terminalCount tr ≤ 1 ∧
    (∀ pre e post, tr = pre ++ e :: post → isTerminal e = true → post = []) ∧
    (s = .closed → terminalCount tr = 1 ∨
      ∃ pre e, tr = pre ++ [e] ∧ isEndMarker e = true) := by
  have hlast : ∀ pre e post, tr = pre ++ e :: post → isTerminal e = true →
      post = [] := by
    intro pre e post htr hterm
    exact run_terminal_last pre post e .idle s (htr ▸ hrun) hterm
  refine ⟨run_terminalCount_le_one tr .idle s hrun, hlast, ?_⟩
  intro hcl
  subst hcl
  rcases List.eq_nil_or_concat tr with hnil | ⟨l, e, hcat⟩
  · subst hnil
    have hid : StreamState.idle = .closed := by
      simp only [run, Option.some.injEq] at hrun
      exact hrun
    exact absurd hid (by decide)
  · rw [List.concat_eq_append] at hcat
    have hrun2 := hrun
    rw [hcat, run_append] at hrun2
    cases hpre : run .idle l with
    | none => rw [hpre] at hrun2; cases hrun2
    | some s1 =>
      rw [hpre] at hrun2
      have hrun3 : run s1 [e] = some .closed := hrun2
      cases hstep : stepFn s1 e with
      | none => simp [run, hstep] at hrun3
      | some s2 =>
        have hs2 : s2 = .closed := by simpa [run, hstep] using hrun3
        subst hs2
        rcases stepFn_to_closed s1 e hstep with hterm | hmark
        · left
          have hcl0 : terminalCount l = 0 := by
            by_contra hne
            have hex : ∃ t ∈ l, isTerminal t := by
              by_contra hall
              push_neg at hall
              have hf : List.filter isTerminal l = [] := by
                rw [List.filter_eq_nil_iff]
                intro t ht
                simpa using hall t ht
              exact hne (by simp [terminalCount, hf])
            obtain ⟨t, htl, htt⟩ := hex
            obtain ⟨l1, l2, hsplit⟩ := List.append_of_mem htl
            have htr2 : tr = l1 ++ t :: (l2 ++ [e]) := by
              rw [hcat, hsplit]
              simp
            have hpost := hlast l1 t (l2 ++ [e]) htr2 htt
            simp at hpost
          rw [hcat, terminalCount_append, hcl0, terminalCount_cons]
          simp [hterm, terminalCount]
        · right
          exact ⟨l, e, hcat, hmark⟩

/-- C1 (amended) applied to a headers-then-error stream. -/
theorem terminal_at_most_once_witness :
    run .idle [.on_headers false, .on_error] = some .closed ∧
    (terminalCount [.on_headers false, .on_error] ≤ 1 ∧
     (∀ pre e post, [CallbackEvent.on_headers false, .on_error] = pre ++ e :: post →
       isTerminal e = true → post = []) ∧
     (StreamState.closed = .closed →
       terminalCount [CallbackEvent.on_headers false, .on_error] = 1 ∨
       ∃ pre e, [CallbackEvent.on_headers false, .on_error] = pre ++ [e] ∧
         isEndMarker e = true)) :=
  ⟨by decide, terminal_at_most_once [.on_headers false, .on_error] .closed (by decide)⟩

/-- C6: an `on_data` invocation with `end_stream=true` is the last callback
of any kind for the stream — in every valid callback sequence nothing
follows it. -/
theorem data_end_stream_is_last (tr pre post : List CallbackEvent) (s : StreamState)
    (hrun : run .idle tr = some s) (hsplit : tr = pre ++ .on_data true :: post) :
    post = [] := by
  subst hsplit
  rw [run_append] at hrun
  cases hpre : run .idle pre with
  | none => rw [hpre] at hrun; cases hrun
  | some s1 =>
    rw [hpre] at hrun
    have hrun2 : run s1 (.on_data true :: post) = some s := hrun
    cases hstep : stepFn s1 (.on_data true) with
    | none => simp [run, hstep] at hrun2
    | some s2 =>
      have hrest : run s2 post = some s := by simpa [run, hstep] using hrun2
      have h2 : s2 = .closed := stepFn_data_true_closed s1 s2 hstep
      subst h2
      exact (run_closed_eq post s hrest).1

/-- C6 applied to a headers-then-final-data stream. -/
theorem data_end_stream_is_last_witness :
    run .idle [.on_headers false, .on_data true] = some .closed ∧
    [CallbackEvent.on_headers false, .on_data true] =
      [CallbackEvent.on_headers false] ++ .on_data true :: [] ∧
    ([] : List CallbackEvent) = [] :=
  ⟨by decide, rfl,
   data_end_stream_is_last [.on_headers false, .on_data true]
     [.on_headers false] [] .closed (by decide) rfl⟩

/-- C7: `on_metadata` never carries or implies end-of-stream: a valid
sequence containing no end-marker frame and no terminal callback leaves the
stream open (not ended, and some further callback is possible), and every
`on_metadata` step itself lands in a non-ended state from which further
callbacks are possible. -/
theorem metadata_never_ends_stream (tr : List CallbackEvent) (s : StreamState)
    (hrun : run .idle tr = some s)
    (hnomark : ∀ e ∈ tr, isEndMarker e = false)
    (hnoterm : ∀ e ∈ tr, isTerminal e = false) :
    s ≠ .closed ∧ (∃ e s2, stepFn s e = some s2) ∧
    (∀ s0 s1, stepFn s0 .on_metadata = some s1 →
      s1 ≠ .closed ∧ ∃ e s2, stepFn s1 e = some s2) := by
  have hne : s ≠ .closed :=
    run_no_marker_not_closed tr .idle s hrun hnomark hnoterm (by decide)
  exact ⟨hne, not_closed_can_step s hne, by decide⟩

/-- C7 applied to a headers-then-metadata stream. -/
theorem metadata_never_ends_stream_witness :
    run .idle [.on_headers false, .on_metadata] = some .active ∧
    (∀ e ∈ [CallbackEvent.on_headers false, .on_metadata], isEndMarker e = false) ∧
    (∀ e ∈ [CallbackEvent.on_headers false, .on_metadata], isTerminal e = false) ∧
    (StreamState.active ≠ .closed ∧ (∃ e s2, stepFn .active e = some s2) ∧
     (∀ s0 s1, stepFn s0 .on_metadata = some s1 →
       s1 ≠ .closed ∧ ∃ e s2, stepFn s1 e = some s2)) :=
  ⟨by decide, by decide, by decide,
   metadata_never_ends_stream [.on_headers false, .on_metadata] .active
     (by decide) (by decide) (by decide)⟩

end EnvoyC
